import Mathlib

/-!
Verification of the markdown fence-repair engine (`src/lib/markdown-utils.ts`)
and the diagram sanitizer (`src/lib/diagram-utils.ts`) of the repository.

Strings are modelled as `List Char`.  A multi-line text is modelled by the
list of its lines (the decomposition produced by `content.split('\n')`);
since none of the rewrites ever inserts a newline character into a line,
this line-level model is faithful to the string-level functions.
-/

/-- JS strings viewed as lists of characters. -/
abbrev Str := List Char

/-- The character class matched by the JS regex `\s` (also the set used by
`String.prototype.trim`). -/
def isSpaceJS (c : Char) : Bool :=
  c = ' ' || c = '\t' || c = '\n' || c = '\r' || c = '\x0b' || c = '\x0c' ||
  c = '\u00A0' || c = '\u1680' || ('\u2000' ≤ c && c ≤ '\u200A') ||
  c = '\u2028' || c = '\u2029' || c = '\u202F' || c = '\u205F' ||
  c = '\u3000' || c = '\uFEFF'

/-- JS `String.prototype.trim`: drop `\s` characters from both ends. -/
def jsTrim (l : Str) : Str :=
  ((l.dropWhile isSpaceJS).reverse.dropWhile isSpaceJS).reverse

/-- The backtick character. -/
def bt : Char := '`'

/-- `'`'.repeat n`: a run of `n` backticks. -/
def ticks (n : Nat) : Str := List.replicate n bt

/-- Length of the leading backtick run (the text matched by `^(`+)`). -/
def tickRun (l : Str) : Nat := (l.takeWhile (fun c => c = bt)).length

/-- `needle ∈ haystack` as a substring (JS `String.prototype.includes`). -/
def containsSub (n h : Str) : Bool := h.tails.any (fun t => n.isPrefixOf t)

/-! ## Fence repair engine — `repairMarkdown` (markdown-utils.ts) -/

/-- A fence marker, as built by the `fenceLines` map in `repairMarkdown`:
`index` is the line position, `length` the backtick run length of the
trimmed line, `info` the trimmed info string, `raw` the original line. -/
structure Fence where
  index : Nat
  length : Nat
  info : Str
  raw : Str
deriving DecidableEq

/-- A matched opener/closer pair (`blocks` entries in `repairMarkdown`);
`endL` is the source's `end` field (a reserved word in Lean). -/
structure Block where
  start : Nat
  endL : Nat
  fenceLength : Nat
deriving DecidableEq

/-- One entry of the `fenceLines` array: a line whose trimmed content starts
with three backticks, decomposed by the regex `^(`+)(.*)$`. -/
def fenceOf (idx : Nat) (line : Str) : Option Fence :=
  let trimmed := jsTrim line
  if (ticks 3).isPrefixOf trimmed then
    some ⟨idx, tickRun trimmed, jsTrim (trimmed.drop (tickRun trimmed)), line⟩
  else none

/-- The `fenceLines` array, built by mapping `fenceOf` over the lines with
their indices (starting at `i`). -/
def fenceLinesAux : Nat → List Str → List Fence
  | _, [] => []
  | i, l :: ls =>
    match fenceOf i l with
    | some f => f :: fenceLinesAux (i + 1) ls
    | none => fenceLinesAux (i + 1) ls

/-- The `fenceLines` array of a line list. -/
def fenceLines (lines : List Str) : List Fence := fenceLinesAux 0 lines

/-- `fence.length >= currentBlockStartFence.length && fence.info === ''`:
the condition for a marker to close the currently open block. -/
def closes (opener f : Fence) : Bool :=
  decide (opener.length ≤ f.length) && f.info.isEmpty

/-- The opener/closer pairing loop of `repairMarkdown` (source lines 34-49):
walk the markers in order, each marker either opens a block, closes the
open one, or is skipped as content. -/
def pairAux : List Fence → List Block → Option Fence → List Block × Option Fence
  | [], bs, cur => (bs, cur)
  | f :: rest, bs, cur =>
    match cur with
    | none => pairAux rest bs (some f)
    | some c =>
      if closes c f then pairAux rest (bs ++ [⟨c.index, f.index, c.length⟩]) none
      else pairAux rest bs (some c)

/-- Pairing of a marker list, starting from no open block. -/
def pairFences (fs : List Fence) : List Block × Option Fence := pairAux fs [] none

/-- The predicate of the `find` call in the unclosed-block handling
(source lines 56-60): a later marker with empty info and tick length at
least the opener's. -/
def validCloser (op f : Fence) : Bool :=
  decide (op.index < f.index) && f.info.isEmpty && decide (op.length ≤ f.length)

/-- Leading whitespace of a line (the regex `^(\s*)`, which always matches). -/
def leadingWs (l : Str) : Str := l.takeWhile isSpaceJS

/-- The regex `^(\s*)(`+)`: leading whitespace followed by at least one
backtick; returns the whitespace and the backtick run length. -/
def matchWsTicks (l : Str) : Option (Str × Nat) :=
  let sp := leadingWs l
  let n := tickRun (l.drop sp.length)
  if n = 0 then none else some (sp, n)

/-- The regex `^(\s*)(`+)(.*)$`: whitespace, backtick run, and the rest of
the line. -/
def matchWsTicksRest (l : Str) : Option (Str × Nat × Str) :=
  let sp := leadingWs l
  let rest := l.drop sp.length
  let n := tickRun rest
  if n = 0 then none else some (sp, n, rest.drop n)

/-- Unclosed-block handling, lengthen branch (source lines 64-74): rewrite
the closer line to the opener's tick length, keeping its indentation. -/
def lengthenCloser (lines : List Str) (op nf : Fence) : List Str :=
  let endLine := lines.getD nf.index []
  let endIndent := match matchWsTicks endLine with
    | some (sp, _) => sp
    | none => []
  lines.set nf.index (endIndent ++ ticks op.length)

/-- Unclosed-block handling, append branch (source lines 85-93): push a new
closing fence with the opener's length and indentation. -/
def appendCloser (lines : List Str) (op : Fence) : List Str :=
  let startLine := lines.getD op.index []
  lines ++ [leadingWs startLine ++ ticks op.length]

/-- The fragmentation rewrite (source lines 112-136): widen the block's
opener and the following marker's line to `fenceLength + 1` backticks. -/
def fragRewrite (lines : List Str) (b : Block) (nfIdx : Nat) : Option (List Str) :=
  let newFence := ticks (b.fenceLength + 1)
  let startLine := lines.getD b.start []
  match matchWsTicksRest startLine with
  | some (indent, _, info) =>
    let lines1 := lines.set b.start (indent ++ newFence ++ info)
    let endLine := lines1.getD nfIdx []
    let endIndent := match matchWsTicks endLine with
      | some (sp, _) => sp
      | none => indent
    some (lines1.set nfIdx (endIndent ++ newFence))
  | none => none

/-- The reactive (fragmentation) repair loop of `repairMarkdown` (source
lines 98-138): for each block, look at the first marker after its closer
and merge when it is dangling or adjacent and has no info string. -/
def fragLoop (lines : List Str) (fs : List Fence) (allBlocks : List Block) :
    List Block → Option (List Str)
  | [] => none
  | b :: rest =>
    match fs.find? (fun f => decide (b.endL < f.index)) with
    | none => fragLoop lines fs allBlocks rest
    | some nf =>
      let isNextFenceStart := allBlocks.any (fun bb => bb.start == nf.index)
      let contentBetween :=
        jsTrim (List.flatten ((lines.drop (b.endL + 1)).take (nf.index - (b.endL + 1))))
      if (!isNextFenceStart || contentBetween.isEmpty) && nf.info.isEmpty then
        match fragRewrite lines b nf.index with
        | some ls => some ls
        | none => fragLoop lines fs allBlocks rest
      else fragLoop lines fs allBlocks rest

/-- Maximum backtick run among the lines strictly inside a block that look
like a closer (trimmed `^(`{3,})(.*)$` with empty trimmed info), per source
lines 148-160. -/
def innerMaxTicks (lines : List Str) (b : Block) : Nat :=
  ((lines.drop (b.start + 1)).take (b.endL - (b.start + 1))).foldl
    (fun acc l =>
      let t := jsTrim l
      let n := tickRun t
      if (decide (3 ≤ n) && (jsTrim (t.drop n)).isEmpty) then max acc n else acc) 0

/-- The proactive (nested-fence) rewrite (source lines 162-184): widen both
boundaries to `maxInnerBackticks + 1`. -/
def proactiveRewrite (lines : List Str) (b : Block) : Option (List Str) :=
  let m := innerMaxTicks lines b
  if b.fenceLength ≤ m then
    let newFence := ticks (m + 1)
    let startLine := lines.getD b.start []
    match matchWsTicksRest startLine with
    | some (indent, _, info) =>
      let lines1 := lines.set b.start (indent ++ newFence ++ info)
      let endLine := lines1.getD b.endL []
      let endIndent := match matchWsTicks endLine with
        | some (sp, _) => sp
        | none => indent
      some (lines1.set b.endL (endIndent ++ newFence))
    | none => none
  else none

/-- The proactive repair loop of `repairMarkdown` (source lines 145-185). -/
def proactiveLoop (lines : List Str) : List Block → Option (List Str)
  | [] => none
  | b :: rest =>
    match proactiveRewrite lines b with
    | some ls => some ls
    | none => proactiveLoop lines rest

/-- Steps 3 and 4 of a pass: fragmentation repair, then proactive repair. -/
def step34 (lines : List Str) (fs : List Fence) (bs : List Block) : Option (List Str) :=
  match fragLoop lines fs bs bs with
  | some ls => some ls
  | none => proactiveLoop lines bs

/-- One pass of the `for (let pass = 0; pass < 3; pass++)` loop body of
`repairMarkdown`.  Returns `some lines'` when the pass changed the line
list (`changesMade`), `none` when it made no change. -/
def repairPass (lines : List Str) : Option (List Str) :=
  let fs := fenceLines lines
  match pairFences fs with
  | (bs, some op) =>
    match fs.find? (validCloser op) with
    | some nf =>
      if nf.length < op.length then some (lengthenCloser lines op nf)
      else step34 lines fs (bs ++ [⟨op.index, nf.index, op.length⟩])
    | none => some (appendCloser lines op)
  | (bs, none) => step34 lines fs bs

/-- The pass loop: up to `n` passes, stopping early when a pass makes no
change (the source caps `n` at 3). -/
def runPasses : Nat → List Str → List Str
  | 0, ls => ls
  | n + 1, ls =>
    match repairPass ls with
    | some ls' => runPasses n ls'
    | none => ls

/-- `content.includes('```')`: some line contains three backticks (the
substring cannot span a newline). -/
def hasFence (lines : List Str) : Bool := lines.any (fun l => containsSub (ticks 3) l)

/-- `repairMarkdown`, on the line decomposition of the text: return the
input unchanged when it contains no triple backtick, otherwise run up to
three repair passes. -/
def repairMarkdown (lines : List Str) : List Str :=
  if hasFence lines then runPasses 3 lines else lines

/-- A fence line in the sense of `repairMarkdown`: the trimmed line starts
with three backticks. -/
def isFenceLine (l : Str) : Bool := (ticks 3).isPrefixOf (jsTrim l)

/-- `repairMarkdown` converged: within `n` passes some pass made no change. -/
def convergesFuel : Nat → List Str → Bool
  | 0, _ => false
  | n + 1, ls =>
    match repairPass ls with
    | none => true
    | some ls' => convergesFuel n ls'

/-- The pass loop of `repairMarkdown` reaches a fixpoint within its 3-pass
cap on this input (texts without a triple backtick trivially converge). -/
def repairConverges (ls : List Str) : Bool :=
  if hasFence ls then convergesFuel 3 ls else true

/-! ## Diagram sanitizer — diagram-utils.ts -/

/-- `findGt l`: the suffix after the first `'>'` of `l`, if any (locates the
end of an HTML tag for the regex `<[^>]*>`, whose match runs to the first
`'>'`). -/
def findGt : Str → Option Str
  | [] => none
  | c :: rest => if c = '>' then some rest else findGt rest

theorem findGt_length : ∀ (l r : Str), findGt l = some r → r.length < l.length := by
  intro l
  induction l with
  | nil => intro r h; simp [findGt] at h
  | cons c cs ih =>
    intro r h
    simp only [findGt] at h
    split at h
    · cases h; simp
    · exact Nat.lt_trans (ih r h) (Nat.lt_succ_self _)

/-- The replace `/<[^>]*>/g → ' '` of `sanitizeMermaidText`: each segment
from a `'<'` to the first following `'>'` becomes one space; a `'<'` with
no later `'>'` cannot be matched and stays. -/
def stripHtmlTags : Str → Str
  | [] => []
  | c :: rest =>
    if c = '<' then
      match h : findGt rest with
      | some rest' => ' ' :: stripHtmlTags rest'
      | none => c :: stripHtmlTags rest
    else c :: stripHtmlTags rest
termination_by l => l.length
decreasing_by
  · exact Nat.lt_trans (findGt_length _ _ h) (Nat.lt_succ_self _)
  · simp
  · simp

/-- The safe character class kept by `sanitizeMermaidText`
(`[a-zA-Z0-9 .,;:!?()\-_]`). -/
def isSafeChar (c : Char) : Bool :=
  ('a' ≤ c && c ≤ 'z') || ('A' ≤ c && c ≤ 'Z') || ('0' ≤ c && c ≤ '9') ||
  c = ' ' || c = '.' || c = ',' || c = ';' || c = ':' || c = '!' || c = '?' ||
  c = '(' || c = ')' || c = '-' || c = '_'

/-- The replace `/\s+/g → ' '` of `sanitizeMermaidText`: collapse every
whitespace run to a single space (right fold: a whitespace character in
front of an already-collapsed tail either merges into the single space the
rest of its run became, or opens a new single space). -/
def collapseWs : Str → Str
  | [] => []
  | c :: rest =>
    let acc := collapseWs rest
    if isSpaceJS c then
      if acc.head?.any isSpaceJS then acc else ' ' :: acc
    else c :: acc

/-- `sanitizeMermaidText` (diagram-utils.ts, lines 110-125): strip HTML
tags, drop backticks/quotes/angle brackets, replace slashes by spaces,
replace newlines/tabs by spaces, keep only the safe class, collapse
whitespace, trim. -/
def sanitizeMermaidText (text : Str) : Str :=
  let s1 := stripHtmlTags text
  let s2 := s1.filter (fun c => !(c = '`' || c = '"' || c = '\'' || c = '<' || c = '>'))
  let s3 := s2.map (fun c => if c = '\\' || c = '/' then ' ' else c)
  let s4 := s3.map (fun c => if c = '\n' || c = '\t' then ' ' else c)
  let s5 := s4.filter isSafeChar
  jsTrim (collapseWs s5)

/-- The result record of `validateMermaidSyntax`. -/
structure ValidationResult where
  valid : Bool
  error : Option Str
deriving DecidableEq

/-- The `validTypes` list of `validateMermaidSyntax`. -/
def validTypes : List Str :=
  ["graph".toList, "flowchart".toList, "sequenceDiagram".toList, "classDiagram".toList,
   "stateDiagram".toList, "erDiagram".toList, "gantt".toList]

/-- `validateMermaidSyntax` (diagram-utils.ts, lines 82-104).  The source's
`try/catch` can never fire (the body is exception-free), so it is not
modelled. -/
def validateMermaidSyntax (code : Str) : ValidationResult :=
  let trimmed := jsTrim code
  if trimmed.isEmpty then ⟨false, some "Empty diagram code".toList⟩
  else if validTypes.any (fun t => containsSub t trimmed) then ⟨true, none⟩
  else ⟨false, some "Invalid or missing diagram type".toList⟩

/-- ASCII letters and digits (`[a-zA-Z0-9]`). -/
def isAlnumAscii (c : Char) : Bool :=
  ('a' ≤ c && c ≤ 'z') || ('A' ≤ c && c ≤ 'Z') || ('0' ≤ c && c ≤ '9')

/-! ### generateMermaidFromJSON -/

/-- `MermaidNode` (`{id, label, shape?}`); a missing or absent `label` and
`shape` are modelled with `Option` (at runtime the JSON may omit them). -/
structure MermaidNode where
  id : Str
  label : Option Str
  shape : Option Str
deriving DecidableEq

/-- `MermaidEdge` (`{from, to, label?, type?}`); `from` is a Lean keyword,
hence the field names `fromId`/`toId`. -/
structure MermaidEdge where
  fromId : Str
  toId : Str
  label : Option Str
  type : Option Str
deriving DecidableEq

/-- `MermaidDiagramData` (`{title?, direction?, nodes, edges}`). -/
structure MermaidDiagramData where
  title : Option Str
  direction : Option Str
  nodes : List MermaidNode
  edges : List MermaidEdge
deriving DecidableEq

/-- The `cleanLabel` helper of `generateMermaidFromJSON`:
`text ? text.replace(/["\n\r]/g, ' ').trim() : ''`. -/
def cleanLabel (text : Str) : Str :=
  if text.isEmpty then []
  else jsTrim (text.map (fun c => if c = '"' || c = '\n' || c = '\r' then ' ' else c))

/-- The `cleanId` helper of `generateMermaidFromJSON`:
`id.replace(/[^a-zA-Z0-9]/g, '_')`. -/
def cleanId (id : Str) : Str := id.map (fun c => if isAlnumAscii c then c else '_')

/-- The shape-specific bracket syntax of the `getShape` helper (its
`switch`): unknown, `'rect'` and missing shapes all fall to the default
rectangle case. -/
def shapeWrap (shape : Option Str) (safeId clean : Str) : Str :=
  match shape with
  | some s =>
    if s = "rounded".toList then safeId ++ "(\"".toList ++ clean ++ "\")".toList
    else if s = "circle".toList then safeId ++ "((\"".toList ++ clean ++ "\"))".toList
    else if s = "diamond".toList then safeId ++ "\x7b\"".toList ++ clean ++ "\"\x7d".toList
    else if s = "database".toList then safeId ++ "[(\"".toList ++ clean ++ "\")]".toList
    else if s = "cloud".toList then safeId ++ "((\"".toList ++ clean ++ "\"))".toList
    else if s = "hexagon".toList then safeId ++ "\x7b\x7b\"".toList ++ clean ++ "\"\x7d\x7d".toList
    else safeId ++ "[\"".toList ++ clean ++ "\"]".toList
  | none => safeId ++ "[\"".toList ++ clean ++ "\"]".toList

/-- The `getShape` helper of `generateMermaidFromJSON`: sanitize the id,
fall back to the sanitized id when the label is missing or empty
(`label || safeId`), clean the label, and wrap in the shape syntax. -/
def getShape (id : Str) (label : Option Str) (shape : Option Str) : Str :=
  let safeId := cleanId id
  let lab := match label with
    | some l => if l.isEmpty then safeId else l
    | none => safeId
  shapeWrap shape safeId (cleanLabel lab)

/-- The `getEdge` helper of `generateMermaidFromJSON`: arrow token by edge
type (defaulting to the solid arrow) with an optional quoted pipe label. -/
def getEdge (type : Option Str) (label : Option Str) : Str :=
  let clean := match label with
    | some l => if l.isEmpty then [] else cleanLabel l
    | none => []
  let labelPart := if clean.isEmpty then [] else "|\"".toList ++ clean ++ "\"|".toList
  match type with
  | some t =>
    if t = "dotted".toList then "-.->".toList ++ labelPart
    else if t = "thick".toList then "==>".toList ++ labelPart
    else if t = "line".toList then "---".toList ++ labelPart
    else "-->".toList ++ labelPart
  | none => "-->".toList ++ labelPart

/-- The `lines` array built by `generateMermaidFromJSON`: header, node
lines, edge lines. -/
def genLines (data : MermaidDiagramData) : List Str :=
  ("graph ".toList ++ data.direction.getD "TD".toList) ::
  (data.nodes.map (fun n => "  ".toList ++ getShape n.id n.label n.shape) ++
   data.edges.map (fun e =>
     "  ".toList ++ cleanId e.fromId ++ " ".toList ++ getEdge e.type e.label ++
     " ".toList ++ cleanId e.toId))

/-- `generateMermaidFromJSON` (diagram-utils.ts, lines 361-411):
`lines.join('\n')`. -/
def generateMermaidFromJSON (data : MermaidDiagramData) : Str :=
  List.intercalate "\n".toList (genLines data)

/-! ### sanitizeMermaidCode -/

/-- The replace `/\r\n/g → '\n'` (newline normalization). -/
def replCrLf : Str → Str
  | [] => []
  | '\r' :: '\n' :: rest => '\n' :: replCrLf rest
  | c :: rest => c :: replCrLf rest

/-- Comment removal: truncate a line at its first `'%%'`
(`line.indexOf('%%')` / `line.substring(0, commentIndex)`). -/
def stripComment : Str → Str
  | [] => []
  | '%' :: '%' :: _ => []
  | c :: rest => c :: stripComment rest

/-- `String.prototype.split('\n')` on a character list. -/
def splitNl : Str → List Str
  | [] => [[]]
  | c :: rest =>
    if c = '\n' then [] :: splitNl rest
    else
      match splitNl rest with
      | s :: ss => (c :: s) :: ss
      | [] => [[c]]

/-- `Array.prototype.join('\n')`. -/
def joinNl (ls : List Str) : Str := List.intercalate ['\n'] ls

/-- The directive test of `sanitizeMermaidCode` (source lines 148-152):
`classDef`, `class `, `click `, `style `, `linkStyle ` prefixes. -/
def isDirective (t : Str) : Bool :=
  "classDef".toList.isPrefixOf t || "class ".toList.isPrefixOf t ||
  "click ".toList.isPrefixOf t || "style ".toList.isPrefixOf t ||
  "linkStyle ".toList.isPrefixOf t

/-- The subgraph branch (source lines 157-165): quote and sanitize an
unquoted subgraph title. -/
def subgraphRewrite (trimmed : Str) : Str :=
  let title := jsTrim (trimmed.drop 9)
  if title.head? = some '"' then trimmed
  else "subgraph \"".toList ++ sanitizeMermaidText title ++ "\"".toList

/-- The test `/^(graph|flowchart)\s/`. -/
def isGraphDecl (t : Str) : Bool :=
  ("graph".toList.isPrefixOf t && ((t.drop 5).head?.map isSpaceJS).getD false) ||
  ("flowchart".toList.isPrefixOf t && ((t.drop 9).head?.map isSpaceJS).getD false)

/-- `dir.replace(';', '')`: JS `replace` with a string pattern removes only
the first occurrence. -/
def removeFirstSemi : Str → Str
  | [] => []
  | c :: rest => if c = ';' then rest else c :: removeFirstSemi rest

/-- `String.prototype.split(/\s+/)`: split on maximal whitespace runs (a
leading run produces a leading empty piece, a trailing run a trailing
empty piece). -/
def splitWs (s : Str) : List Str :=
  let w := s.takeWhile (fun c => !isSpaceJS c)
  match h : s.drop w.length with
  | [] => [w]
  | _ :: r' => w :: splitWs (r'.dropWhile isSpaceJS)
termination_by s.length
decreasing_by
  have h1 : (s.drop (s.takeWhile (fun c => !isSpaceJS c)).length).length ≤ s.length :=
    Nat.le_trans (Nat.le_of_eq (List.length_drop _ _)) (Nat.sub_le _ _)
  have h2 := List.Sublist.length_le (List.dropWhile_sublist (l := r') (isSpaceJS))
  have h3 : r'.length + 1 ≤ s.length := by
    have := congrArg List.length h
    simp at this
    omega
  omega

/-- The graph/flowchart declaration branch (source lines 168-178): strip a
trailing semicolon, split on whitespace, validate the direction against
`['TB','TD','BT','RL','LR']` (default `'TD'`), and rebuild the line. -/
def graphDeclRewrite (trimmed : Str) : Str :=
  let t := if trimmed.getLast? = some ';' then trimmed.dropLast else trimmed
  let parts := splitWs t
  let type := parts.headD []
  let dir := match parts.get? 1 with
    | some d => if d.isEmpty then "TD".toList else d
    | none => "TD".toList
  let cleanDir := removeFirstSemi dir
  let validDirs : List Str := ["TB".toList, "TD".toList, "BT".toList, "RL".toList, "LR".toList]
  let safeDir := if validDirs.contains cleanDir then cleanDir else "TD".toList
  type ++ " ".toList ++ safeDir

/-- The arrow test of `sanitizeMermaidCode` (source lines 182-190): any of
the patterns `-->`, `---`, `.->`, `==>`, `--` occurs in the line. -/
def hasArrowB (t : Str) : Bool :=
  containsSub "-->".toList t || containsSub "---".toList t || containsSub ".->".toList t ||
  containsSub "==>".toList t || containsSub "--".toList t

/-- A generic left-to-right global regex replace: `try_ l` returns the
replacement text and the number of consumed characters when a match starts
at the head of `l`; otherwise the scanner emits one character and moves
on (the behaviour of `String.prototype.replace` with a `g` regex whose
matches are nonempty). -/
def scanWith (try_ : Str → Option (Str × Nat))
    (hpos : ∀ l e k, try_ l = some (e, k) → 1 ≤ k) : Str → Str
  | [] => []
  | c :: cs =>
    match h : try_ (c :: cs) with
    | some (e, k) => e ++ scanWith try_ hpos ((c :: cs).drop k)
    | none => c :: scanWith try_ hpos cs
termination_by l => l.length
decreasing_by
  · have := hpos _ _ _ h
    simp only [List.length_drop, List.length_cons]
    omega
  · simp

/-- `[-=]` (the class of the alternative `[=-]+>?\|`). -/
def classDashEq (c : Char) : Bool := c = '=' || c = '-'

/-- `[.-]` (the class of the alternative `[.-]+>?\|`). -/
def classDashDot (c : Char) : Bool := c = '.' || c = '-'

/-- Length of the text matched at the head of `l` by the group
`(\||[=-]+>?\||[.-]+>?\|)` (alternatives tried in order; the character
runs are greedy and, as no shorter run can succeed, effectively maximal). -/
def pipeStart (l : Str) : Option Nat :=
  if l.head? = some '|' then some 1
  else
    let tryRun (r : Str) : Option Nat :=
      if r.isEmpty then none
      else match l.drop r.length with
        | '>' :: '|' :: _ => some (r.length + 2)
        | '|' :: _ => some (r.length + 1)
        | _ => none
    match tryRun (l.takeWhile classDashEq) with
    | some n => some n
    | none => tryRun (l.takeWhile classDashDot)

/-- Drop trailing whitespace. -/
def rstripSpaces (s : Str) : Str := (s.reverse.dropWhile isSpaceJS).reverse

/-- One match of the pipe-label replace (source line 207):
`/(\||[=-]+>?\||[.-]+>?\|)\s*(?!"|')(.*?)\s*(\|)/g`.  The greedy `\s*`
backtracks one space when the lookahead sees a quote, which is why a quote
separated from the pipe by whitespace is still captured (with a leading
space) while an immediate quote fails the match.  The non-greedy `(.*?)`
reaches exactly to the first following pipe, minus trailing whitespace. -/
def tryMatch1 (l : Str) : Option (Str × Nat) :=
  match pipeStart l with
  | none => none
  | some g1 =>
    let r1 := l.drop g1
    let m := (r1.takeWhile isSpaceJS).length
    let kq : Option Nat :=
      match (r1.drop m).head? with
      | some q => if q = '"' || q = '\'' then (if m = 0 then none else some (m - 1)) else some m
      | none => some m
    match kq with
    | none => none
    | some k =>
      let contentStart := r1.drop k
      match contentStart.findIdx? (fun c => c = '|') with
      | none => none
      | some q =>
        let content := rstripSpaces (contentStart.take q)
        let total := g1 + k + q + 1
        if (jsTrim content).isEmpty then some (l.take total, total)
        else some (l.take g1 ++ ['"'] ++ sanitizeMermaidText content ++ ['"', '|'], total)

theorem tryMatch1_pos : ∀ l e k, tryMatch1 l = some (e, k) → 1 ≤ k := by
  intro l e k h
  unfold tryMatch1 at h
  split at h
  · exact absurd h (by simp)
  · dsimp only at h
    split at h
    · exact absurd h (by simp)
    · split at h
      · exact absurd h (by simp)
      · split at h <;> (cases h; omega)

/-- Run length of a repeated character at the head. -/
def runOf (c : Char) (l : Str) : Nat := (l.takeWhile (fun x => x = c)).length

/-- Length matched at the head by `(--+|\.\.+|==+)` (maximal run of at
least two, alternatives in order). -/
def dashRun2 (l : Str) : Option Nat :=
  let d := runOf '-' l
  if 2 ≤ d then some d else
  let p := runOf '.' l
  if 2 ≤ p then some p else
  let e := runOf '=' l
  if 2 ≤ e then some e else none

/-- Length matched at the head by `(--+>?|\.\.+>?|==+>?)`. -/
def endArrowLen (s : Str) : Option Nat :=
  let d := runOf '-' s
  if 2 ≤ d then some (if (s.drop d).head? = some '>' then d + 1 else d)
  else
    let p := runOf '.' s
    if 2 ≤ p then some (if (s.drop p).head? = some '>' then p + 1 else p)
    else
      let e := runOf '=' s
      if 2 ≤ e then some (if (s.drop e).head? = some '>' then e + 1 else e) else none

/-- At a content/terminator boundary of the space-label replace: a
whitespace run of length ≥ 1 followed by an end arrow; returns the run
length and arrow length. -/
def boundaryAt2 (seg : Str) : Option (Nat × Nat) :=
  let n := (seg.takeWhile isSpaceJS).length
  if 1 ≤ n then
    match endArrowLen (seg.drop n) with
    | some g3 => some (n, g3)
    | none => none
  else none

/-- One match of the space-label replace (source line 215):
`/(--+|\.\.+|==+)\s+(?!"|')(.+?)\s+(--+>?|\.\.+>?|==+>?)/g`.  `\s+`
backtracks one space on a quote (so it fails when only one space precedes
the quote), and the non-greedy `(.+?)` stops at the first
whitespace-then-arrow boundary. -/
def tryMatch2 (l : Str) : Option (Str × Nat) :=
  match dashRun2 l with
  | none => none
  | some g1 =>
    let r1 := l.drop g1
    let m := (r1.takeWhile isSpaceJS).length
    if m = 0 then none
    else
      let kq : Option Nat :=
        match (r1.drop m).head? with
        | some q => if q = '"' || q = '\'' then (if m = 1 then none else some (m - 1)) else some m
        | none => some m
      match kq with
      | none => none
      | some k =>
        let contentStart := r1.drop k
        match (List.range (contentStart.length + 1)).find?
            (fun c => decide (1 ≤ c) && (boundaryAt2 (contentStart.drop c)).isSome) with
        | none => none
        | some c =>
          match boundaryAt2 (contentStart.drop c) with
          | none => none
          | some (n, g3) =>
            let content := contentStart.take c
            let total := g1 + k + c + n + g3
            if (jsTrim content).isEmpty then some (l.take total, total)
            else if content.any (fun ch => ch = '[' || ch = '(' || ch = '\x7b') then
              some (l.take total, total)
            else
              some (l.take g1 ++ " \"".toList ++ sanitizeMermaidText content ++ "\" ".toList ++
                    (contentStart.drop (c + n)).take g3, total)

theorem dashRun2_ge2 : ∀ l g, dashRun2 l = some g → 2 ≤ g := by
  intro l g h
  unfold dashRun2 at h
  dsimp only at h
  split at h
  · cases h; assumption
  · split at h
    · cases h; assumption
    · split at h
      · cases h; assumption
      · exact absurd h (by simp)

theorem tryMatch2_pos : ∀ l e k, tryMatch2 l = some (e, k) → 1 ≤ k := by
  intro l e k h
  unfold tryMatch2 at h
  split at h
  · exact absurd h (by simp)
  · rename_i g1 hd
    have hg1 := dashRun2_ge2 _ _ hd
    dsimp only at h
    split at h
    · exact absurd h (by simp)
    · split at h
      · exact absurd h (by simp)
      · split at h
        · exact absurd h (by simp)
        · split at h
          · exact absurd h (by simp)
          · split at h
            · cases h; omega
            · split at h <;> (cases h; omega)

/-- One match of the dangling-quoted-label replace (source line 228):
`/(-->|\.->|==>)\s*"([^"]+)"(?!\s*[)\]}>]|\s*--|\s*\.\.|\s*==)/g`, replaced
by `arrow NodeX["label"]` with a node id synthesized from the label. -/
def tryMatch3 (l : Str) : Option (Str × Nat) :=
  let g1ok := "-->".toList.isPrefixOf l || ".->".toList.isPrefixOf l || "==>".toList.isPrefixOf l
  if g1ok then
    let r1 := l.drop 3
    let m := (r1.takeWhile isSpaceJS).length
    match (r1.drop m) with
    | '"' :: rest2 =>
      let lab := rest2.takeWhile (fun c => !(c = '"'))
      if lab.isEmpty then none
      else match rest2.drop lab.length with
        | '"' :: rest3 =>
          let n := (rest3.takeWhile isSpaceJS).length
          let t := rest3.drop n
          let bad :=
            (match t.head? with
             | some ch => ch = ')' || ch = ']' || ch = '\x7d' || ch = '>'
             | none => false) ||
            "--".toList.isPrefixOf t || "..".toList.isPrefixOf t || "==".toList.isPrefixOf t
          if bad then none
          else
            let nodeId := 'N' :: ((sanitizeMermaidText lab).filter isAlnumAscii).take 10
            let total := 3 + m + 1 + lab.length + 1
            some (l.take 3 ++ [' '] ++ nodeId ++ "[\"".toList ++ sanitizeMermaidText lab ++
                  "\"]".toList, total)
        | _ => none
    | _ => none
  else none

theorem tryMatch3_pos : ∀ l e k, tryMatch3 l = some (e, k) → 1 ≤ k := by
  intro l e k h
  simp only [tryMatch3] at h
  split at h
  · split at h
    · split at h
      · exact absurd h (by simp)
      · split at h
        · split at h
          · exact absurd h (by simp)
          · cases h; omega
        · exact absurd h (by simp)
    · exact absurd h (by simp)
  · exact absurd h (by simp)

/-- `\w` plus dash: the class of the node-id group `[\w-]+`. -/
def isWordDash (c : Char) : Bool := isAlnumAscii c || c = '_' || c = '-'

/-- One entry of the `shapes` table of `sanitizeMermaidCode` (source lines
237-250): the start/end patterns and the opening/closing text used in the
replacement. -/
structure ShapeDef where
  startPat : Str
  endPat : Str
  o : Str
  c : Str

/-- The `shapes` table, in source order (database, subroutine, circle,
hexagon, parallelogram, parallelogram alt, trapezoid, trapezoid alt,
round, square, rhombus, asymmetric). -/
def shapesList : List ShapeDef :=
  [⟨"[(".toList, ")]".toList, "[(".toList, ")]".toList⟩,
   ⟨"[[".toList, "]]".toList, "[[".toList, "]]".toList⟩,
   ⟨"((".toList, "))".toList, "((".toList, "))".toList⟩,
   ⟨"\x7b\x7b".toList, "\x7d\x7d".toList, "\x7b\x7b".toList, "\x7d\x7d".toList⟩,
   ⟨"[/".toList, "/]".toList, "[/".toList, "/]".toList⟩,
   ⟨"[\\".toList, "\\]".toList, "[\\".toList, "\\]".toList⟩,
   ⟨"[/".toList, "\\]".toList, "[/".toList, "\\]".toList⟩,
   ⟨"[\\".toList, "/]".toList, "[\\".toList, "/]".toList⟩,
   ⟨"(".toList, ")".toList, "(".toList, ")".toList⟩,
   ⟨"[".toList, "]".toList, "[".toList, "]".toList⟩,
   ⟨"\x7b".toList, "\x7d".toList, "\x7b".toList, "\x7d".toList⟩,
   ⟨">".toList, "]".toList, ">".toList, "]".toList⟩]

/-- One match of a shape regex
`([\w-]+)\s*START(.*?|.*)END` (source lines 254-272): a maximal id run,
optional whitespace, the start pattern, the content (to the first end
pattern when non-greedy, to the last when greedy), and the end pattern;
the interior is trimmed, un-quoted when fully quoted, sanitized and
re-quoted. -/
def tryShape (sd : ShapeDef) (nonGreedy : Bool) (l : Str) : Option (Str × Nat) :=
  let idLen := (l.takeWhile isWordDash).length
  if idLen = 0 then none
  else
    let after := l.drop idLen
    let sp := (after.takeWhile isSpaceJS).length
    let afterSp := after.drop sp
    if sd.startPat.isPrefixOf afterSp then
      let body := afterSp.drop sd.startPat.length
      let idxs := (List.range (body.length + 1)).filter (fun i => sd.endPat.isPrefixOf (body.drop i))
      match (if nonGreedy then idxs.head? else idxs.getLast?) with
      | none => none
      | some j =>
        let text := jsTrim (body.take j)
        let text2 :=
          if text.head? = some '"' && text.getLast? = some '"' then (text.drop 1).dropLast
          else text
        let total := idLen + sp + sd.startPat.length + j + sd.endPat.length
        some (l.take idLen ++ sd.o ++ ['"'] ++ sanitizeMermaidText text2 ++ ['"'] ++ sd.c, total)
    else none

theorem tryShape_pos (sd : ShapeDef) (ng : Bool) :
    ∀ l e k, tryShape sd ng l = some (e, k) → 1 ≤ k := by
  intro l e k h
  simp only [tryShape] at h
  split at h
  · exact absurd h (by simp)
  · split at h
    · split at h
      · exact absurd h (by simp)
      · cases h
        rename_i hid _ _ _
        omega
    · exact absurd h (by simp)

/-- The pipe-label replace applied globally to a line. -/
def scan1 : Str → Str := scanWith tryMatch1 tryMatch1_pos

/-- The space-label replace applied globally to a line. -/
def scan2 : Str → Str := scanWith tryMatch2 tryMatch2_pos

/-- The dangling-quoted-label replace applied globally to a line. -/
def scan3 : Str → Str := scanWith tryMatch3 tryMatch3_pos

/-- The shapes loop (source lines 254-273): the twelve shape replaces
applied in order, non-greedy content when the line has an arrow. -/
def applyShapes (nonGreedy : Bool) (line : Str) : Str :=
  shapesList.foldl (fun acc sd => scanWith (tryShape sd nonGreedy) (tryShape_pos sd nonGreedy) acc) line

/-- The bare `id label` fallback (source lines 277-287): the regex
`^([\w-]+)\s+(.+)$`; `none` when the line does not match or the id is the
reserved word `end` (in both cases the processed line is returned
unchanged). -/
def bareNodeRewrite (t : Str) : Option Str :=
  let id := t.takeWhile isWordDash
  if id.isEmpty then none
  else
    let after := t.drop id.length
    let m := (after.takeWhile isSpaceJS).length
    if m = 0 then none
    else
      let rest := after.drop m
      let labelRaw := if rest.isEmpty then (if 2 ≤ m then [' '] else []) else rest
      if labelRaw.isEmpty then none
      else if id = "end".toList then none
      else some (id ++ "[\"".toList ++ sanitizeMermaidText (jsTrim labelRaw) ++ "\"]".toList)

/-- The per-line processing of `sanitizeMermaidCode` (the `lines.map`
callback, source lines 143-289): trim; drop empty lines; pass directives
through (trimmed); rewrite subgraph titles, graph declarations, edge
labels, shapes; fall back to wrapping a bare `id label` pair. -/
def processLine (line : Str) : Str :=
  let trimmed := jsTrim line
  if trimmed.isEmpty then []
  else if isDirective trimmed then trimmed
  else if "subgraph ".toList.isPrefixOf trimmed then subgraphRewrite trimmed
  else if isGraphDecl trimmed then graphDeclRewrite trimmed
  else
    let hasArrow := hasArrowB trimmed
    let t1 := if hasArrow then scan3 (scan2 (scan1 trimmed)) else trimmed
    let processedLine := applyShapes hasArrow t1
    if processedLine = t1 && !hasArrow then
      match bareNodeRewrite t1 with
      | some out => out
      | none => processedLine
    else processedLine

/-- `sanitizeMermaidCode` (diagram-utils.ts, lines 130-293): normalize
newlines, strip `%%` comments per line, process each line, drop emptied
lines, re-join. -/
def sanitizeMermaidCode (code : Str) : Str :=
  let s2 := joinNl ((splitNl (replCrLf code)).map stripComment)
  joinNl (((splitNl s2).map processLine).filter (fun l => !l.isEmpty))

/-! ## Helper lemmas -/

theorem isAlnumAscii_not_space (c : Char) (h : isAlnumAscii c = true) : isSpaceJS c = false := by
  simp only [isAlnumAscii, Bool.or_eq_true, Bool.and_eq_true, decide_eq_true_eq] at h
  simp only [isSpaceJS, Bool.or_eq_false_iff, Bool.and_eq_false_iff, decide_eq_false_iff_not]
  rcases h with (⟨h1, h2⟩ | ⟨h1, h2⟩) | ⟨h1, h2⟩ <;>
    (repeat' apply And.intro) <;>
    first
      | (intro heq; subst heq;
         first
           | exact absurd h1 (by decide)
           | exact absurd h2 (by decide))
      | (left; intro hle; exact absurd (le_trans hle h2) (by decide))

theorem isAlnumAscii_not_qnr (c : Char) (h : isAlnumAscii c = true) :
    (c = '"' || c = '\n' || c = '\r') = false := by
  simp only [isAlnumAscii, Bool.or_eq_true, Bool.and_eq_true, decide_eq_true_eq] at h
  simp only [Bool.or_eq_false_iff, decide_eq_false_iff_not]
  rcases h with (⟨h1, h2⟩ | ⟨h1, h2⟩) | ⟨h1, h2⟩ <;>
    (repeat' apply And.intro) <;>
    (intro heq; subst heq; exact absurd h1 (by decide))

theorem map_noop {α : Type} (f : α → α) :
    ∀ l : List α, (∀ a ∈ l, f a = a) → l.map f = l := by
  intro l h
  induction l with
  | nil => rfl
  | cons c cs ih =>
    simp only [List.map_cons]
    rw [h c (by simp), ih (fun a ha => h a (by simp [ha]))]

theorem mem_cleanId (id : Str) (c : Char) (h : c ∈ cleanId id) :
    isAlnumAscii c = true ∨ c = '_' := by
  unfold cleanId at h
  rcases List.mem_map.mp h with ⟨x, _, hx⟩
  by_cases hax : isAlnumAscii x = true
  · left; rw [if_pos hax] at hx; rw [hx] at hax; exact hax
  · right; rw [if_neg hax] at hx; exact hx.symm

theorem dropWhile_all_false {α : Type} (p : α → Bool) :
    ∀ l : List α, (∀ c ∈ l, p c = false) → List.dropWhile p l = l := by
  intro l h
  cases l with
  | nil => rfl
  | cons c cs => simp [List.dropWhile, h c (List.mem_cons_self c cs)]

theorem jsTrim_eq_self (l : Str) (h : ∀ c ∈ l, isSpaceJS c = false) : jsTrim l = l := by
  unfold jsTrim
  rw [dropWhile_all_false _ _ h, dropWhile_all_false, List.reverse_reverse]
  intro c hc
  exact h c (List.mem_reverse.mp hc)

theorem cleanLabel_cleanId (id : Str) : cleanLabel (cleanId id) = cleanId id := by
  unfold cleanLabel
  by_cases he : (cleanId id).isEmpty
  · rw [if_pos he]
    cases hval : cleanId id
    · rfl
    · rw [hval] at he; simp at he
  · rw [if_neg he]
    rw [map_noop]
    · apply jsTrim_eq_self
      intro c hc
      rcases mem_cleanId id c hc with h | h
      · exact isAlnumAscii_not_space c h
      · subst h; decide
    · intro a ha
      rcases mem_cleanId id a ha with h | h
      · rw [if_neg]
        intro hbad
        rw [isAlnumAscii_not_qnr a h] at hbad
        exact absurd hbad (by simp)
      · subst h; decide

/-! ## Claims about the diagram sanitizer -/

/-- C7: `validateMermaidSyntax("")` returns `{valid: false, error: "Empty
diagram code"}`; `validateMermaidSyntax("just some prose")` returns
`valid: false`; `validateMermaidSyntax("graph TD\nA-->B")` returns
`valid: true`. -/
theorem validateMermaidSyntax_specified_inputs :
    validateMermaidSyntax "".toList = ⟨false, some "Empty diagram code".toList⟩ ∧
    (validateMermaidSyntax "just some prose".toList).valid = false ∧
    (validateMermaidSyntax "graph TD\nA-->B".toList).valid = true := by
  decide

/-- C8: `generateMermaidFromJSON` applied to
`{"direction":"LR","nodes":[{"id":"a-1","label":"Start"}],"edges":[{"from":"a-1","to":"a-1"}]}`
returns exactly `graph LR\n  a_1["Start"]\n  a_1 --> a_1`. -/
theorem generateMermaidFromJSON_example :
    generateMermaidFromJSON ⟨none, some "LR".toList,
      [⟨"a-1".toList, some "Start".toList, none⟩],
      [⟨"a-1".toList, "a-1".toList, none, none⟩]⟩ =
    "graph LR\n  a_1[\"Start\"]\n  a_1 --> a_1".toList := by
  decide

/-- C9 (counterexample): a directive line carrying leading whitespace is
emitted trimmed by `sanitizeMermaidCode`, so the output line is not
byte-identical to the input line. -/
theorem sanitizeMermaidCode_modifies_directive_line :
    sanitizeMermaidCode "  style A".toList = "style A".toList ∧
    "style A".toList ≠ "  style A".toList := by
  decide

/-- C9 (amended): a line whose trimmed, comment-stripped content starts
with a directive keyword is emitted as exactly that trimmed content; in
particular a directive line with no surrounding whitespace passes through
unmodified. -/
theorem processLine_directive_trimmed (line : Str)
    (h : isDirective (jsTrim line) = true) : processLine line = jsTrim line := by
  have hne : (jsTrim line).isEmpty = false := by
    cases hful : jsTrim line
    · rw [hful] at h
      exact absurd h (by decide)
    · rfl
  simp only [processLine, hne, h, Bool.false_eq_true, if_false, if_true]

/-- C9 (witness): the amended theorem applied to the concrete directive
line `style A fill:red`, which passes through unmodified. -/
theorem processLine_directive_trimmed_witness :
    processLine "style A fill:red".toList = jsTrim "style A fill:red".toList ∧
    jsTrim "style A fill:red".toList = "style A fill:red".toList :=
  ⟨processLine_directive_trimmed "style A fill:red".toList (by decide), by decide⟩

/-- C10: a node whose label is missing or empty is emitted by
`generateMermaidFromJSON` with its sanitized id as the label text (the
`label || safeId` fallback of `getShape`, and `cleanLabel` leaves a
sanitized id unchanged), never with an empty label. -/
theorem generateMermaidFromJSON_label_fallback (data : MermaidDiagramData)
    (n : MermaidNode) (hmem : n ∈ data.nodes)
    (hlab : n.label = none ∨ n.label = some []) :
    getShape n.id n.label n.shape = shapeWrap n.shape (cleanId n.id) (cleanId n.id) ∧
    ("  ".toList ++ shapeWrap n.shape (cleanId n.id) (cleanId n.id)) ∈ genLines data := by
  have hshape : getShape n.id n.label n.shape =
      shapeWrap n.shape (cleanId n.id) (cleanId n.id) := by
    unfold getShape
    rcases hlab with h | h <;> rw [h] <;> simp [cleanLabel_cleanId]
  refine ⟨hshape, ?_⟩
  unfold genLines
  refine List.mem_cons_of_mem _ (List.mem_append_left _ ?_)
  rw [← hshape]
  exact List.mem_map_of_mem _ hmem

/-- C10 (witness): the fallback theorem applied to the label-less node
`{id: "a-1"}`, which is emitted as `a_1["a_1"]`. -/
theorem generateMermaidFromJSON_label_fallback_witness :
    (getShape "a-1".toList none none =
      shapeWrap none (cleanId "a-1".toList) (cleanId "a-1".toList) ∧
     ("  ".toList ++ shapeWrap none (cleanId "a-1".toList) (cleanId "a-1".toList)) ∈
       genLines ⟨none, none, [⟨"a-1".toList, none, none⟩], []⟩) ∧
    shapeWrap none (cleanId "a-1".toList) (cleanId "a-1".toList) = "a_1[\"a_1\"]".toList :=
  ⟨generateMermaidFromJSON_label_fallback ⟨none, none, [⟨"a-1".toList, none, none⟩], []⟩
      ⟨"a-1".toList, none, none⟩ (by decide) (Or.inl rfl),
   by decide⟩

/-- Every character of the collapsed text is either a space or came from
the input. -/
theorem mem_collapseWs : ∀ (l : Str) (c : Char), c ∈ collapseWs l → c = ' ' ∨ c ∈ l := by
  intro l
  induction l with
  | nil => intro c hc; simp [collapseWs] at hc
  | cons c rest ih =>
    intro d hd
    simp only [collapseWs] at hd
    by_cases hsp : isSpaceJS c
    · rw [if_pos hsp] at hd
      by_cases hh : (collapseWs rest).head?.any isSpaceJS
      · rw [if_pos hh] at hd
        rcases ih d hd with h | h
        · exact Or.inl h
        · exact Or.inr (List.mem_cons_of_mem _ h)
      · rw [if_neg hh] at hd
        rcases List.mem_cons.mp hd with h | h
        · exact Or.inl h
        · rcases ih d h with h' | h'
          · exact Or.inl h'
          · exact Or.inr (List.mem_cons_of_mem _ h')
    · rw [if_neg hsp] at hd
      rcases List.mem_cons.mp hd with h | h
      · exact Or.inr (h ▸ List.mem_cons_self _ _)
      · rcases ih d h with h' | h'
        · exact Or.inl h'
        · exact Or.inr (List.mem_cons_of_mem _ h')

/-- Every character of the trimmed text came from the input. -/
theorem mem_jsTrim (l : Str) (c : Char) (h : c ∈ jsTrim l) : c ∈ l := by
  unfold jsTrim at h
  have h1 := List.mem_reverse.mp h
  have h2 := List.Sublist.mem h1 (List.dropWhile_sublist _)
  have h3 := List.mem_reverse.mp h2
  exact List.Sublist.mem h3 (List.dropWhile_sublist _)

/-- No two adjacent whitespace characters, as a chain relation. -/
def ndRel (a b : Char) : Prop := ¬(isSpaceJS a = true ∧ isSpaceJS b = true)

theorem chain'_ndRel_reverse (l : Str) (h : List.Chain' ndRel l) :
    List.Chain' ndRel l.reverse := by
  rw [List.chain'_reverse]
  exact List.Chain'.imp (fun a b hab => fun ⟨x, y⟩ => hab ⟨y, x⟩) h

/-- Trimming preserves the no-adjacent-whitespace property. -/
theorem jsTrim_chain' (l : Str) (h : List.Chain' ndRel l) :
    List.Chain' ndRel (jsTrim l) := by
  unfold jsTrim
  exact chain'_ndRel_reverse _
    (List.Chain'.suffix
      (chain'_ndRel_reverse _ (List.Chain'.suffix h (List.dropWhile_suffix _)))
      (List.dropWhile_suffix _))

/-- The collapsed text never has two adjacent whitespace characters. -/
theorem chain'_collapseWs : ∀ l : Str, List.Chain' ndRel (collapseWs l) := by
  intro l
  induction l with
  | nil => simp [collapseWs]
  | cons c rest ih =>
    simp only [collapseWs]
    by_cases hsp : isSpaceJS c
    · rw [if_pos hsp]
      by_cases hh : (collapseWs rest).head?.any isSpaceJS
      · rw [if_pos hh]
        exact ih
      · rw [if_neg hh]
        rw [List.chain'_cons']
        refine ⟨?_, ih⟩
        intro y hy
        intro hand
        rw [hy] at hh
        simp [Option.any] at hh
        exact absurd hand.2 (by simp [hh])
    · rw [if_neg hsp]
      rw [List.chain'_cons']
      refine ⟨?_, ih⟩
      intro y _
      exact fun ⟨hsp2, _⟩ => hsp hsp2

/-- The trimmed text does not end with whitespace. -/
theorem jsTrim_getLast_not_space (l : Str) :
    (jsTrim l).getLast?.all (fun c => !isSpaceJS c) = true := by
  unfold jsTrim
  rw [List.getLast?_reverse]
  have hnot := List.head?_dropWhile_not isSpaceJS ((l.dropWhile isSpaceJS).reverse)
  rcases hh : (((l.dropWhile isSpaceJS).reverse).dropWhile isSpaceJS).head? with _ | g
  · rfl
  · rw [hh] at hnot
    simpa using hnot

/-- The trimmed text does not start with whitespace. -/
theorem jsTrim_head_not_space (l : Str) :
    (jsTrim l).head?.all (fun c => !isSpaceJS c) = true := by
  unfold jsTrim
  rw [List.head?_reverse]
  rcases List.dropWhile_suffix (l := (l.dropWhile isSpaceJS).reverse) isSpaceJS with ⟨u, hu⟩
  rcases hz : ((l.dropWhile isSpaceJS).reverse).dropWhile isSpaceJS with _ | ⟨z0, zs⟩
  · rfl
  · have hy : (l.dropWhile isSpaceJS).reverse = u ++ (z0 :: zs) := by rw [← hz, hu]
    have h1 : ((l.dropWhile isSpaceJS).reverse).getLast? = (l.dropWhile isSpaceJS).head? :=
      List.getLast?_reverse _
    have h2 : ((l.dropWhile isSpaceJS).reverse).getLast? = (z0 :: zs).getLast? := by
      rw [hy, List.getLast?_append]
      rcases hlast : (z0 :: zs).getLast? with _ | g
      · simp at hlast
      · simp [hlast]
    rw [← h2, h1]
    have hnot := List.head?_dropWhile_not isSpaceJS l
    rcases hh : (l.dropWhile isSpaceJS).head? with _ | g
    · rfl
    · rw [hh] at hnot
      simpa using hnot

/-- C6: `sanitizeMermaidText` returns text containing only characters of
the fixed safe class (letters, digits, space and the punctuation set
`. , ; : ! ? ( ) - _`), with no two adjacent whitespace characters and no
leading or trailing whitespace. -/
theorem sanitizeMermaidText_safe (t : Str) :
    (sanitizeMermaidText t).all isSafeChar = true ∧
    List.Chain' ndRel (sanitizeMermaidText t) ∧
    (sanitizeMermaidText t).head?.all (fun c => !isSpaceJS c) = true ∧
    (sanitizeMermaidText t).getLast?.all (fun c => !isSpaceJS c) = true := by
  refine ⟨?_, ?_, ?_, ?_⟩
  · rw [List.all_eq_true]
    intro c hc
    unfold sanitizeMermaidText at hc
    rcases mem_collapseWs _ c (mem_jsTrim _ c hc) with h | h
    · subst h; decide
    · exact (List.mem_filter.mp h).2
  · exact jsTrim_chain' _ (chain'_collapseWs _)
  · exact jsTrim_head_not_space _
  · exact jsTrim_getLast_not_space _

/-! ## Fence-repair lemmas -/

theorem tickRun_ge_of_ticksPrefix (n : Nat) :
    ∀ l : Str, (ticks n).isPrefixOf l = true → n ≤ tickRun l := by
  induction n with
  | zero => intro l _; exact Nat.zero_le _
  | succ m ih =>
    intro l h
    cases l with
    | nil =>
      rw [show ticks (m + 1) = bt :: ticks m from by simp [ticks, List.replicate_succ]] at h
      simp [List.isPrefixOf] at h
    | cons c cs =>
      rw [show ticks (m + 1) = bt :: ticks m from by simp [ticks, List.replicate_succ]] at h
      simp only [List.isPrefixOf, Bool.and_eq_true, beq_iff_eq] at h
      obtain ⟨hc, hrest⟩ := h
      subst hc
      have h1 : tickRun (bt :: cs) = tickRun cs + 1 := by
        unfold tickRun
        simp [List.takeWhile]
      have := ih cs hrest
      omega

theorem tickRun_ticks_append (n : Nat) (r : Str)
    (hr : ∀ c, r.head? = some c → ¬(c = bt)) : tickRun (ticks n ++ r) = n := by
  induction n with
  | zero =>
    cases r with
    | nil => rfl
    | cons c cs =>
      have := hr c rfl
      unfold tickRun
      rw [show ticks 0 ++ c :: cs = c :: cs from rfl]
      rw [List.takeWhile_cons, if_neg (by simpa using this)]
      rfl
  | succ m ih =>
    rw [show ticks (m + 1) ++ r = bt :: (ticks m ++ r) from by simp [ticks, List.replicate_succ]]
    unfold tickRun at ih ⊢
    rw [List.takeWhile_cons, if_pos (by simp)]
    simp only [List.length_cons, ih]

theorem dropWhile_append_all (p : Char → Bool) (sp t : Str)
    (h : ∀ c ∈ sp, p c = true) : List.dropWhile p (sp ++ t) = List.dropWhile p t := by
  induction sp with
  | nil => rfl
  | cons c cs ih =>
    simp only [List.cons_append, List.dropWhile]
    rw [h c (List.mem_cons_self _ _)]
    exact ih (fun d hd => h d (List.mem_cons_of_mem _ hd))

theorem dropWhile_cons_false (p : Char → Bool) (c : Char) (t : Str)
    (h : p c = false) : List.dropWhile p (c :: t) = c :: t := by
  simp [List.dropWhile, h]

theorem jsTrim_indent_ticks (sp : Str) (n : Nat) (info : Str)
    (hsp : ∀ c ∈ sp, isSpaceJS c = true) (hn : 1 ≤ n) :
    jsTrim (sp ++ ticks n ++ info) =
      ticks n ++ (info.reverse.dropWhile isSpaceJS).reverse := by
  unfold jsTrim
  rw [List.append_assoc, dropWhile_append_all _ sp _ hsp]
  obtain ⟨m, rfl⟩ : ∃ m, n = m + 1 := ⟨n - 1, by omega⟩
  rw [show ticks (m + 1) ++ info = bt :: (ticks m ++ info) from by
    simp [ticks, List.replicate_succ]]
  rw [dropWhile_cons_false _ _ _ (by decide)]
  rw [show bt :: (ticks m ++ info) = ticks (m + 1) ++ info from by
    simp [ticks, List.replicate_succ]]
  rw [List.reverse_append, List.dropWhile_append]
  by_cases he : (info.reverse.dropWhile isSpaceJS).isEmpty
  · rw [if_pos he]
    have hrep : (ticks (m + 1)).reverse = ticks (m + 1) := by
      simp [ticks, List.reverse_replicate]
    rw [hrep]
    rw [show ticks (m + 1) = bt :: ticks m from by simp [ticks, List.replicate_succ]]
    rw [dropWhile_cons_false _ _ _ (by decide)]
    have : info.reverse.dropWhile isSpaceJS = [] := by
      cases hval : info.reverse.dropWhile isSpaceJS
      · rfl
      · rw [hval] at he; simp at he
    rw [this]
    simp only [List.append_nil, List.nil_append, List.reverse_cons]
    rw [show (ticks m).reverse = ticks m from by simp [ticks, List.reverse_replicate]]
    unfold ticks
    rw [← List.replicate_succ', List.replicate_succ]
    simp
  · rw [if_neg he]
    rw [List.reverse_append, List.reverse_reverse]

theorem isFenceLine_build (sp info : Str) (n : Nat)
    (hsp : ∀ c ∈ sp, isSpaceJS c = true)
    (hinfo : ∀ c, info.head? = some c → ¬(c = bt)) (hn : 3 ≤ n) :
    isFenceLine (sp ++ ticks n ++ info) = true ∧
    tickRun (jsTrim (sp ++ ticks n ++ info)) = n := by
  have htrim := jsTrim_indent_ticks sp n info hsp (by omega)
  constructor
  · unfold isFenceLine
    rw [htrim]
    rw [ List.isPrefixOf_iff_prefix]
    rw [show ticks n = ticks 3 ++ ticks (n - 3) from by
      unfold ticks
      rw [← List.replicate_add]
      congr 1
      omega]
    rw [List.append_assoc]
    exact List.prefix_append _ _
  · rw [htrim]
    apply tickRun_ticks_append
    intro c hc
    have hpre : (info.reverse.dropWhile isSpaceJS).reverse <+: info :=
      List.reverse_suffix.mp (by rw [List.reverse_reverse]; exact List.dropWhile_suffix _)
    rcases hpre with ⟨t, ht⟩
    have : info.head? = some c := by
      rw [← ht, List.head?_append, hc]
      rfl
    exact hinfo c this

theorem leadingWs_space (l : Str) : ∀ c ∈ leadingWs l, isSpaceJS c = true := by
  intro c hc
  exact List.mem_takeWhile_imp hc

theorem drop_length_takeWhile (p : Char → Bool) :
    ∀ l : Str, l.drop ((l.takeWhile p).length) = l.dropWhile p := by
  intro l
  induction l with
  | nil => rfl
  | cons c cs ih =>
    by_cases hp : p c
    · rw [List.takeWhile_cons, if_pos hp, List.dropWhile_cons, if_pos hp]
      simpa using ih
    · rw [List.takeWhile_cons, if_neg hp, List.dropWhile_cons, if_neg hp]
      rfl

theorem drop_tickRun_head (l : Str) :
    ∀ c, (l.drop (tickRun l)).head? = some c → ¬(c = bt) := by
  intro c hc
  have heq : l.drop (tickRun l) = l.dropWhile (fun x => decide (x = bt)) :=
    drop_length_takeWhile _ l
  rw [heq] at hc
  have := List.head?_dropWhile_not (fun x => decide (x = bt)) l
  rw [hc] at this
  simpa using this

theorem matchWsTicksRest_some (l : Str) (sp : Str) (n : Nat) (info : Str)
    (h : matchWsTicksRest l = some (sp, n, info)) :
    sp = leadingWs l ∧ 1 ≤ n ∧ (∀ c, info.head? = some c → ¬(c = bt)) := by
  simp only [matchWsTicksRest] at h
  split at h
  · exact absurd h (by simp)
  · rename_i hn
    simp only [Option.some.injEq, Prod.mk.injEq] at h
    obtain ⟨h1, h2, h3⟩ := h
    subst h2
    subst h3
    exact ⟨h1.symm, by omega, drop_tickRun_head _⟩

theorem matchWsTicks_some (l : Str) (sp : Str) (n : Nat)
    (h : matchWsTicks l = some (sp, n)) : sp = leadingWs l := by
  simp only [matchWsTicks] at h
  split at h
  · exact absurd h (by simp)
  · simp only [Option.some.injEq, Prod.mk.injEq] at h
    exact h.1.symm

theorem fenceOf_fields (i : Nat) (l : Str) (f : Fence) (h : fenceOf i l = some f) :
    f.index = i ∧ f.raw = l ∧ isFenceLine l = true ∧ f.length = tickRun (jsTrim l) := by
  simp only [fenceOf] at h
  split at h
  · rename_i hpre
    injection h with h1
    subst h1
    exact ⟨rfl, rfl, hpre, rfl⟩
  · exact absurd h (by simp)

theorem fenceOf_length_ge3 (i : Nat) (l : Str) (f : Fence) (h : fenceOf i l = some f) :
    3 ≤ f.length := by
  obtain ⟨_, _, hfl, hlen⟩ := fenceOf_fields i l f h
  rw [hlen]
  exact tickRun_ge_of_ticksPrefix 3 _ hfl

theorem fenceLinesAux_mem : ∀ (ls : List Str) (i : Nat) (f : Fence),
    f ∈ fenceLinesAux i ls →
    i ≤ f.index ∧ ls[f.index - i]? = some f.raw ∧ fenceOf f.index f.raw = some f := by
  intro ls
  induction ls with
  | nil => intro i f hf; simp [fenceLinesAux] at hf
  | cons l rest ih =>
    intro i f hf
    simp only [fenceLinesAux] at hf
    cases hfo : fenceOf i l with
    | none =>
      rw [hfo] at hf
      obtain ⟨hle, hget, hfence⟩ := ih (i + 1) f hf
      refine ⟨by omega, ?_, hfence⟩
      rw [show f.index - i = (f.index - (i + 1)) + 1 from by omega]
      simpa using hget
    | some f0 =>
      rw [hfo] at hf
      rcases List.mem_cons.mp hf with h | h
      · subst h
        obtain ⟨hidx, hraw, _, _⟩ := fenceOf_fields i l f hfo
        refine ⟨hidx ▸ Nat.le_refl _, ?_, ?_⟩
        · rw [hidx, Nat.sub_self]
          simpa using hraw.symm
        · rw [hidx, hraw]
          exact hfo
      · obtain ⟨hle, hget, hfence⟩ := ih (i + 1) f h
        refine ⟨by omega, ?_, hfence⟩
        rw [show f.index - i = (f.index - (i + 1)) + 1 from by omega]
        simpa using hget

/-- A fence of `fenceLines ls` sits at its index in `ls`, is a fence line,
and has backtick run at least 3. -/
theorem fenceLines_mem (ls : List Str) (f : Fence) (hf : f ∈ fenceLines ls) :
    ls[f.index]? = some f.raw ∧ fenceOf f.index f.raw = some f ∧
    isFenceLine f.raw = true ∧ 3 ≤ f.length := by
  obtain ⟨_, hget, hfence⟩ := fenceLinesAux_mem ls 0 f hf
  rw [Nat.sub_zero] at hget
  obtain ⟨_, hraw, hfl, _⟩ := fenceOf_fields _ _ _ hfence
  exact ⟨hget, hfence, hraw ▸ hfl, fenceOf_length_ge3 _ _ _ hfence⟩

theorem fenceLinesAux_lb : ∀ (ls : List Str) (i : Nat) (f : Fence),
    f ∈ fenceLinesAux i ls → i ≤ f.index := by
  intro ls i f hf
  exact (fenceLinesAux_mem ls i f hf).1

theorem fenceLinesAux_pairwise : ∀ (ls : List Str) (i : Nat),
    (fenceLinesAux i ls).Pairwise (fun a b => a.index < b.index) := by
  intro ls
  induction ls with
  | nil => intro i; simp [fenceLinesAux]
  | cons l rest ih =>
    intro i
    simp only [fenceLinesAux]
    cases hfo : fenceOf i l with
    | none => exact ih (i + 1)
    | some f0 =>
      refine List.Pairwise.cons ?_ (ih (i + 1))
      intro g hg
      have h1 := fenceLinesAux_lb rest (i + 1) g hg
      have h2 := (fenceOf_fields i l f0 hfo).1
      omega

theorem fenceLines_pairwise (ls : List Str) :
    (fenceLines ls).Pairwise (fun a b => a.index < b.index) :=
  fenceLinesAux_pairwise ls 0

/-- A fence record is consistent with the line list. -/
def fenceAt (ls : List Str) (f : Fence) : Prop :=
  ls[f.index]? = some f.raw ∧ fenceOf f.index f.raw = some f

theorem fenceAt_of_mem (ls : List Str) (f : Fence) (hf : f ∈ fenceLines ls) :
    fenceAt ls f :=
  ⟨(fenceLines_mem ls f hf).1, (fenceLines_mem ls f hf).2.1⟩

theorem fenceAt_line (ls : List Str) (f : Fence) (h : fenceAt ls f) :
    ls[f.index]? = some f.raw ∧ isFenceLine f.raw = true ∧ 3 ≤ f.length := by
  obtain ⟨hget, hfo⟩ := h
  obtain ⟨_, hraw, hfl, _⟩ := fenceOf_fields _ _ _ hfo
  exact ⟨hget, hraw ▸ hfl, fenceOf_length_ge3 _ _ _ hfo⟩

/-- Both boundary lines of a block are fence lines and its length is ≥ 3. -/
def blockWf (ls : List Str) (b : Block) : Prop :=
  3 ≤ b.fenceLength ∧
  (∃ s, ls[b.start]? = some s ∧ isFenceLine s = true) ∧
  (∃ s, ls[b.endL]? = some s ∧ isFenceLine s = true)

theorem pairAux_blocks (ls : List Str) : ∀ (fs : List Fence) (bs : List Block)
    (cur : Option Fence),
    (∀ f ∈ fs, fenceAt ls f) → (∀ c, cur = some c → fenceAt ls c) →
    (∀ b ∈ bs, blockWf ls b) →
    (∀ b ∈ (pairAux fs bs cur).1, blockWf ls b) ∧
    (∀ c, (pairAux fs bs cur).2 = some c → fenceAt ls c) := by
  intro fs
  induction fs with
  | nil =>
    intro bs cur _ h2 h3
    exact ⟨h3, h2⟩
  | cons f rest ih =>
    intro bs cur hfs hcur hbs
    simp only [pairAux]
    cases cur with
    | none =>
      exact ih bs (some f) (fun g hg => hfs g (List.mem_cons_of_mem _ hg))
        (fun c hc => by cases hc; exact hfs f (List.mem_cons_self _ _)) hbs
    | some c =>
      dsimp only
      by_cases hcl : closes c f = true
      · rw [if_pos hcl]
        apply ih _ none (fun g hg => hfs g (List.mem_cons_of_mem _ hg))
          (fun c' hc' => by cases hc')
        intro b hb
        rcases List.mem_append.mp hb with hb' | hb'
        · exact hbs b hb'
        · have hb'' : b = ⟨c.index, f.index, c.length⟩ := by simpa using hb'
          subst hb''
          have hc := fenceAt_line ls c (hcur c rfl)
          have hf := fenceAt_line ls f (hfs f (List.mem_cons_self _ _))
          exact ⟨hc.2.2, ⟨c.raw, hc.1, hc.2.1⟩, ⟨f.raw, hf.1, hf.2.1⟩⟩
      · rw [if_neg hcl]
        exact ih bs (some c) (fun g hg => hfs g (List.mem_cons_of_mem _ hg))
          (fun c' hc' => by cases hc'; exact hcur c rfl) hbs

theorem pairAux_dangling : ∀ (fs : List Fence) (bs : List Block) (cur : Option Fence)
    (bs' : List Block) (op : Fence),
    pairAux fs bs cur = (bs', some op) →
    fs.Pairwise (fun a b => a.index < b.index) →
    (∀ c, cur = some c → ∀ g ∈ fs, c.index < g.index) →
    (cur = some op ∨ op ∈ fs) ∧ ∀ g ∈ fs, op.index < g.index → closes op g = false := by
  intro fs
  induction fs with
  | nil =>
    intro bs cur bs' op h _ _
    simp only [pairAux, Prod.mk.injEq] at h
    exact ⟨Or.inl h.2, fun g hg => absurd hg (List.not_mem_nil _)⟩
  | cons f rest ih =>
    intro bs cur bs' op h hpw hcur
    simp only [pairAux] at h
    obtain ⟨hf_lt, hpw'⟩ := List.pairwise_cons.mp hpw
    cases cur with
    | none =>
      obtain ⟨hmem, hrest⟩ := ih bs (some f) bs' op h hpw'
        (fun c hc g hg => by cases hc; exact hf_lt g hg)
      constructor
      · right
        rcases hmem with h' | h'
        · cases h'
          exact List.mem_cons_self _ _
        · exact List.mem_cons_of_mem _ h'
      · intro g hg hlt
        rcases List.mem_cons.mp hg with rfl | hg'
        · rcases hmem with h' | h'
          · cases h'
            exact absurd hlt (by omega)
          · have := hf_lt op h'
            exact absurd hlt (by omega)
        · exact hrest g hg' hlt
    | some c =>
      dsimp only at h
      by_cases hcl : closes c f = true
      · rw [if_pos hcl] at h
        obtain ⟨hmem, hrest⟩ := ih _ none bs' op h hpw' (fun c' hc' => by cases hc')
        constructor
        · rcases hmem with h' | h'
          · cases h'
          · exact Or.inr (List.mem_cons_of_mem _ h')
        · intro g hg hlt
          rcases List.mem_cons.mp hg with rfl | hg'
          · rcases hmem with h' | h'
            · cases h'
            · have := hf_lt op h'
              exact absurd hlt (by omega)
          · exact hrest g hg' hlt
      · rw [if_neg hcl] at h
        obtain ⟨hmem, hrest⟩ := ih bs (some c) bs' op h hpw'
          (fun c' hc' g hg => by cases hc'; exact hcur c rfl g (List.mem_cons_of_mem _ hg))
        constructor
        · rcases hmem with h' | h'
          · exact Or.inl h'
          · exact Or.inr (List.mem_cons_of_mem _ h')
        · intro g hg hlt
          rcases List.mem_cons.mp hg with rfl | hg'
          · rcases hmem with h' | h'
            · have hop : op = c := by injection h' with h''; exact h''.symm
              subst hop
              exact eq_false_of_ne_true hcl
            · have := hf_lt op h'
              exact absurd hlt (by omega)
          · exact hrest g hg' hlt

theorem pairFences_dangling (fs : List Fence) (bs' : List Block) (op : Fence)
    (h : pairFences fs = (bs', some op))
    (hpw : fs.Pairwise (fun a b => a.index < b.index)) :
    op ∈ fs ∧ ∀ g ∈ fs, op.index < g.index → closes op g = false := by
  obtain ⟨hmem, hrest⟩ := pairAux_dangling fs [] none bs' op h hpw (fun c hc => by cases hc)
  rcases hmem with h' | h'
  · cases h'
  · exact ⟨h', hrest⟩

/-- When the pairing walk leaves a dangling opener, no marker satisfies the
`find` predicate of the unclosed-block handling. -/
theorem find?_validCloser_none (fs : List Fence) (op : Fence)
    (h : ∀ g ∈ fs, op.index < g.index → closes op g = false) :
    fs.find? (validCloser op) = none := by
  rw [List.find?_eq_none]
  intro g hg hvc
  simp only [validCloser, Bool.and_eq_true, decide_eq_true_eq] at hvc
  obtain ⟨⟨hidx, hinfo⟩, hlen⟩ := hvc
  have hcl := h g hg hidx
  simp [closes, hinfo, hlen] at hcl

/-- How one repair pass may change the line at a given position: leave it
alone, or rewrite a fence line into a fence line whose backtick run is at
least 4 (every rewrite writes `opener length + 1 ≥ 4` backticks). -/
def PassRel (a b : Option Str) : Prop :=
  a = none ∨ b = a ∨
  ∃ s u, a = some s ∧ b = some u ∧ isFenceLine s = true ∧ isFenceLine u = true ∧
    4 ≤ tickRun (jsTrim u)

theorem PassRel.refl (a : Option Str) : PassRel a a := Or.inr (Or.inl (Eq.refl a))

theorem PassRel.trans {a b c : Option Str} (h1 : PassRel a b) (h2 : PassRel b c) : PassRel a c := by
  rcases h1 with h1 | h1 | ⟨s, u, ha, hb, hs, hu, hr⟩
  · exact Or.inl h1
  · rw [h1] at h2
    exact h2
  · rcases h2 with h2 | h2 | ⟨s', u', hb', hc, hs', hu', hr'⟩
    · rw [h2] at hb
      cases hb
    · rw [h2, hb]
      exact Or.inr (Or.inr ⟨s, u, ha, rfl, hs, hu, hr⟩)
    · refine Or.inr (Or.inr ⟨s, u', ha, hc, hs, hu', hr'⟩)

theorem rel_append (ls : List Str) (x : Str) (i : Nat) :
    PassRel ls[i]? ((ls ++ [x])[i]?) := by
  by_cases hi : i < ls.length
  · exact Or.inr (Or.inl (List.getElem?_append_left hi))
  · exact Or.inl (List.getElem?_eq_none_iff.mpr (by omega))

theorem rel_set (ls : List Str) (v : Str) (j i : Nat)
    (hv : isFenceLine v = true) (hvr : 4 ≤ tickRun (jsTrim v))
    (hj : ∃ s, ls[j]? = some s ∧ isFenceLine s = true) :
    PassRel ls[i]? ((ls.set j v)[i]?) := by
  rw [List.getElem?_set]
  by_cases hij : j = i
  · subst hij
    by_cases hlen : j < ls.length
    · rw [if_pos rfl, if_pos hlen]
      obtain ⟨s, hs, hsf⟩ := hj
      exact Or.inr (Or.inr ⟨s, v, hs, rfl, hsf, hv, hvr⟩)
    · rw [if_pos rfl, if_neg hlen]
      exact Or.inl (List.getElem?_eq_none_iff.mpr (by omega))
  · rw [if_neg hij]
    exact PassRel.refl _

theorem set_keeps_fence (ls : List Str) (v : Str) (j i : Nat)
    (hv : isFenceLine v = true)
    (hi : ∃ s, ls[i]? = some s ∧ isFenceLine s = true) :
    ∃ s, (ls.set j v)[i]? = some s ∧ isFenceLine s = true := by
  rw [List.getElem?_set]
  by_cases hij : j = i
  · subst hij
    by_cases hlen : j < ls.length
    · rw [if_pos rfl, if_pos hlen]
      exact ⟨v, rfl, hv⟩
    · obtain ⟨s, hs, _⟩ := hi
      have : ls[j]? = none := List.getElem?_eq_none_iff.mpr (by omega)
      rw [this] at hs
      cases hs
  · rw [if_neg hij]
    exact hi

theorem isFenceLine_build2 (sp : Str) (n : Nat)
    (hsp : ∀ c ∈ sp, isSpaceJS c = true) (hn : 3 ≤ n) :
    isFenceLine (sp ++ ticks n) = true ∧ tickRun (jsTrim (sp ++ ticks n)) = n := by
  have h := isFenceLine_build sp [] n hsp (fun c hc => by cases hc) hn
  simpa using h

theorem fragRewrite_rel (ls : List Str) (b : Block) (nfIdx : Nat) (ls' : List Str)
    (h : fragRewrite ls b nfIdx = some ls')
    (hL : 3 ≤ b.fenceLength)
    (hstart : ∃ s, ls[b.start]? = some s ∧ isFenceLine s = true)
    (hnf : ∃ s, ls[nfIdx]? = some s ∧ isFenceLine s = true) :
    ∀ i : Nat, PassRel ls[i]? ls'[i]? := by
  simp only [fragRewrite] at h
  split at h
  · rename_i indent m info hm
    obtain ⟨hsp, _, hinfo⟩ := matchWsTicksRest_some _ _ _ _ hm
    have hspc : ∀ c ∈ indent, isSpaceJS c = true := by
      rw [hsp]; exact leadingWs_space _
    have hv1 := isFenceLine_build indent info (b.fenceLength + 1) hspc hinfo (by omega)
    injection h with h
    subst h
    intro i
    apply PassRel.trans (rel_set ls _ b.start i hv1.1 (by rw [hv1.2]; omega) hstart)
    have hend : ∀ c ∈ (match matchWsTicks
        ((ls.set b.start (indent ++ ticks (b.fenceLength + 1) ++ info)).getD nfIdx []) with
        | some (sp, _) => sp
        | none => indent), isSpaceJS c = true := by
      split
      · rename_i sp2 n2 hmt
        rw [matchWsTicks_some _ _ _ hmt]
        exact leadingWs_space _
      · exact hspc
    have hv2 := isFenceLine_build2 _ (b.fenceLength + 1) hend (by omega)
    exact rel_set _ _ nfIdx i hv2.1 (by rw [hv2.2]; omega)
      (set_keeps_fence ls _ b.start nfIdx hv1.1 hnf)
  · cases h

theorem proactiveRewrite_rel (ls : List Str) (b : Block) (ls' : List Str)
    (h : proactiveRewrite ls b = some ls')
    (hL : 3 ≤ b.fenceLength)
    (hstart : ∃ s, ls[b.start]? = some s ∧ isFenceLine s = true)
    (hend : ∃ s, ls[b.endL]? = some s ∧ isFenceLine s = true) :
    ∀ i : Nat, PassRel ls[i]? ls'[i]? := by
  simp only [proactiveRewrite] at h
  split at h
  · rename_i hm
    split at h
    · rename_i indent m info hmr
      obtain ⟨hsp, _, hinfo⟩ := matchWsTicksRest_some _ _ _ _ hmr
      have hspc : ∀ c ∈ indent, isSpaceJS c = true := by
        rw [hsp]; exact leadingWs_space _
      have hv1 := isFenceLine_build indent info (innerMaxTicks ls b + 1) hspc hinfo (by omega)
      injection h with h
      subst h
      intro i
      apply PassRel.trans (rel_set ls _ b.start i hv1.1 (by rw [hv1.2]; omega) hstart)
      have hendsp : ∀ c ∈ (match matchWsTicks
          ((ls.set b.start (indent ++ ticks (innerMaxTicks ls b + 1) ++ info)).getD b.endL [])
          with
          | some (sp, _) => sp
          | none => indent), isSpaceJS c = true := by
        split
        · rename_i sp2 n2 hmt
          rw [matchWsTicks_some _ _ _ hmt]
          exact leadingWs_space _
        · exact hspc
      have hv2 := isFenceLine_build2 _ (innerMaxTicks ls b + 1) hendsp (by omega)
      exact rel_set _ _ b.endL i hv2.1 (by rw [hv2.2]; omega)
        (set_keeps_fence ls _ b.start b.endL hv1.1 hend)
    · cases h
  · cases h

theorem fragLoop_rel (ls : List Str) (fs : List Fence) (allB : List Block)
    (hfs : ∀ f ∈ fs, fenceAt ls f) :
    ∀ (bs : List Block), (∀ b ∈ bs, blockWf ls b) →
    ∀ ls', fragLoop ls fs allB bs = some ls' → ∀ i : Nat, PassRel ls[i]? ls'[i]? := by
  intro bs
  induction bs with
  | nil =>
    intro _ ls' h
    simp [fragLoop] at h
  | cons b rest ih =>
    intro hbs ls' h i
    simp only [fragLoop] at h
    split at h
    · exact ih (fun b' hb' => hbs b' (List.mem_cons_of_mem _ hb')) ls' h i
    · rename_i nf hfind
      split at h
      · split at h
        · rename_i ls0 hfr
          injection h with h
          subst h
          obtain ⟨hL, hstart, _⟩ := hbs b (List.mem_cons_self _ _)
          have hnfAt := fenceAt_line ls nf (hfs nf (List.mem_of_find?_eq_some hfind))
          exact fragRewrite_rel ls b nf.index ls0 hfr hL hstart
            ⟨nf.raw, hnfAt.1, hnfAt.2.1⟩ i
        · exact ih (fun b' hb' => hbs b' (List.mem_cons_of_mem _ hb')) ls' h i
      · exact ih (fun b' hb' => hbs b' (List.mem_cons_of_mem _ hb')) ls' h i

theorem proactiveLoop_rel (ls : List Str) :
    ∀ (bs : List Block), (∀ b ∈ bs, blockWf ls b) →
    ∀ ls', proactiveLoop ls bs = some ls' → ∀ i : Nat, PassRel ls[i]? ls'[i]? := by
  intro bs
  induction bs with
  | nil =>
    intro _ ls' h
    simp [proactiveLoop] at h
  | cons b rest ih =>
    intro hbs ls' h i
    simp only [proactiveLoop] at h
    split at h
    · rename_i ls0 hpr
      injection h with h
      subst h
      obtain ⟨hL, hstart, hend⟩ := hbs b (List.mem_cons_self _ _)
      exact proactiveRewrite_rel ls b ls0 hpr hL hstart hend i
    · exact ih (fun b' hb' => hbs b' (List.mem_cons_of_mem _ hb')) ls' h i

theorem step34_rel (ls : List Str) (fs : List Fence) (bs : List Block)
    (hfs : ∀ f ∈ fs, fenceAt ls f) (hbs : ∀ b ∈ bs, blockWf ls b)
    (ls' : List Str) (h : step34 ls fs bs = some ls') :
    ∀ i : Nat, PassRel ls[i]? ls'[i]? := by
  simp only [step34] at h
  split at h
  · rename_i ls0 hfrag
    injection h with h
    subst h
    exact fragLoop_rel ls fs bs hfs bs hbs ls0 hfrag
  · exact proactiveLoop_rel ls bs hbs ls' h

theorem repairPass_rel (ls ls' : List Str) (h : repairPass ls = some ls') :
    ∀ i : Nat, PassRel ls[i]? ls'[i]? := by
  simp only [repairPass] at h
  have hfsAt : ∀ f ∈ fenceLines ls, fenceAt ls f := fenceAt_of_mem ls
  have hblocks := pairAux_blocks ls (fenceLines ls) [] none hfsAt
    (fun c hc => by cases hc) (fun b hb => absurd hb (List.not_mem_nil _))
  rcases hpair : pairFences (fenceLines ls) with ⟨bs, cur⟩
  rw [show pairAux (fenceLines ls) [] none = pairFences (fenceLines ls) from rfl,
    hpair] at hblocks
  rw [hpair] at h
  cases cur with
  | some op =>
    dsimp only at h
    have hopAt : fenceAt ls op := hblocks.2 op rfl
    split at h
    · rename_i nf hfind
      split at h
      · rename_i hlt
        have hvc := List.find?_some hfind
        simp only [validCloser, Bool.and_eq_true, decide_eq_true_eq] at hvc
        omega
      · apply step34_rel ls (fenceLines ls) _ hfsAt _ ls' h
        intro b hb
        rcases List.mem_append.mp hb with hb' | hb'
        · exact hblocks.1 b hb'
        · have hb'' : b = ⟨op.index, nf.index, op.length⟩ := by simpa using hb'
          subst hb''
          have hop := fenceAt_line ls op hopAt
          have hnf := fenceAt_line ls nf (fenceAt_of_mem ls nf (List.mem_of_find?_eq_some hfind))
          exact ⟨hop.2.2, ⟨op.raw, hop.1, hop.2.1⟩, ⟨nf.raw, hnf.1, hnf.2.1⟩⟩
    · injection h with h
      subst h
      intro i
      exact rel_append ls _ i
  | none =>
    dsimp only at h
    exact step34_rel ls (fenceLines ls) bs hfsAt hblocks.1 ls' h

theorem runPasses_rel : ∀ (n : Nat) (ls : List Str) (i : Nat),
    PassRel ls[i]? ((runPasses n ls)[i]?) := by
  intro n
  induction n with
  | zero => intro ls i; exact PassRel.refl _
  | succ m ih =>
    intro ls i
    simp only [runPasses]
    cases hp : repairPass ls with
    | none => exact PassRel.refl _
    | some ls2 => exact PassRel.trans (repairPass_rel ls ls2 hp i) (ih ls2 i)

theorem repairMarkdown_rel (ls : List Str) (i : Nat) :
    PassRel ls[i]? ((repairMarkdown ls)[i]?) := by
  unfold repairMarkdown
  by_cases hf : hasFence ls
  · rw [if_pos hf]
    exact runPasses_rel 3 ls i
  · rw [if_neg hf]
    exact PassRel.refl _

/-- Input with two adjacent blocks, the second with longer (6-backtick)
fences: the merge rewrite shrinks line 3 from 6 to 4 backticks. -/
def mdC1 : List Str :=
  ["```".toList, "x".toList, "```".toList, "``````".toList, "y".toList, "``````".toList]

/-- A 4-backtick opener with only a shorter empty-info marker after it. -/
def mdC2 : List Str := ["````js".toList, "x".toList, "```".toList]

/-- Four bare fence lines: repair needs more than the 3-pass cap. -/
def mdC3 : List Str := ["```".toList, "```".toList, "```".toList, "```".toList]

/-- A dangling opener with no further marker. -/
def mdW : List Str := ["```js".toList, "x".toList]

/-- A well-formed block on which repair converges without changes. -/
def mdConv : List Str := ["```".toList, "a".toList, "```".toList]

/-! ## Claims about the fence repair engine -/

/-- C1 (counterexample): the fragmentation merge rewrites line 3 of `mdC1`
from six backticks down to four — a fence line present in both input and
output whose backtick run shrinks. -/
theorem repairMarkdown_shrinks_fence :
    mdC1[3]? = some "``````".toList ∧
    (repairMarkdown mdC1)[3]? = some "````".toList ∧
    isFenceLine "``````".toList = true ∧ isFenceLine "````".toList = true ∧
    tickRun (jsTrim "````".toList) < tickRun (jsTrim "``````".toList) := by
  decide

/-- C1 (amended): for a line that is a fence line in both input and output
at the same position, the output backtick run is at least
`min (input run) 4`: an untouched line keeps its run, and every rewritten
line gets `opener length + 1 ≥ 4` backticks — so runs of length ≤ 4 never
shrink, but a longer closer may be shrunk to the merged opener's length
plus one. -/
theorem repairMarkdown_tick_min (ls : List Str) (i : Nat) (s u : Str)
    (h1 : ls[i]? = some s) (h2 : (repairMarkdown ls)[i]? = some u)
    (h3 : isFenceLine s = true) (h4 : isFenceLine u = true) :
    min (tickRun (jsTrim s)) 4 ≤ tickRun (jsTrim u) := by
  have hrel := repairMarkdown_rel ls i
  rcases hrel with h | h | ⟨s', u', ha, hb, _, _, hr⟩
  · rw [h1] at h
    cases h
  · rw [h1] at h
    rw [h] at h2
    injection h2 with h2
    subst h2
    exact Nat.min_le_left _ _
  · rw [h2] at hb
    injection hb with hb
    subst hb
    exact le_trans (Nat.min_le_right _ _) hr

/-- C1 (witness): at `mdC1`, position 3, the input run is 6 and the output
run is 4 = min 6 4. -/
theorem repairMarkdown_tick_min_witness :
    min (tickRun (jsTrim "``````".toList)) 4 ≤ tickRun (jsTrim "````".toList) :=
  repairMarkdown_tick_min mdC1 3 "``````".toList "````".toList
    (by decide) (by decide) (by decide) (by decide)

/-- C2 (counterexample): on `mdC2` an empty-info marker shorter than the
opener exists (line 2, three backticks, opener four), yet `repairMarkdown`
appends a brand-new closer line and leaves that marker unchanged — it is
not lengthened and registered as the closer as the claim states. -/
theorem repairMarkdown_appends_despite_shorter_marker :
    repairMarkdown mdC2 =
      ["````js".toList, "x".toList, "```".toList, "````".toList] ∧
    (fenceLines mdC2).any (fun f => f.info.isEmpty && decide (f.length < 4)) = true ∧
    mdC2[2]? = some "```".toList ∧ (repairMarkdown mdC2)[2]? = some "```".toList := by
  decide

/-- C2 (amended): when a pass ends with a dangling opener, no marker with
empty info string and tick length ≥ the opener's exists at all (the `find`
filters to `length >= opener`, so the lengthen branch is unreachable), and
the pass appends a new closing fence line with the opener's tick length
and indentation at the end of the document. -/
theorem repairPass_dangling_appends (ls : List Str) (bs : List Block) (op : Fence)
    (h : pairFences (fenceLines ls) = (bs, some op)) :
    (fenceLines ls).find? (validCloser op) = none ∧
    repairPass ls = some (ls ++ [leadingWs (ls.getD op.index []) ++ ticks op.length]) := by
  obtain ⟨_, hnoclo⟩ := pairFences_dangling _ bs op h (fenceLines_pairwise ls)
  have hfind := find?_validCloser_none _ op hnoclo
  refine ⟨hfind, ?_⟩
  simp only [repairPass]
  rw [h]
  dsimp only
  rw [hfind]
  rfl

/-- C2 (witness): the dangling opener of `mdW` gets a fresh three-backtick
closer appended. -/
theorem repairPass_dangling_appends_witness :
    (fenceLines mdW).find? (validCloser ⟨0, 3, "js".toList, "```js".toList⟩) = none ∧
    repairPass mdW = some (mdW ++ [leadingWs (mdW.getD 0 []) ++ ticks 3]) :=
  repairPass_dangling_appends mdW [] ⟨0, 3, "js".toList, "```js".toList⟩ (by decide)

theorem convergesFuel_fix : ∀ (n : Nat) (ls : List Str), convergesFuel n ls = true →
    repairPass (runPasses n ls) = none := by
  intro n
  induction n with
  | zero =>
    intro ls h
    simp [convergesFuel] at h
  | succ m ih =>
    intro ls h
    simp only [convergesFuel] at h
    simp only [runPasses]
    cases hp : repairPass ls with
    | none =>
      dsimp only
      exact hp
    | some ls2 =>
      rw [hp] at h
      dsimp only at h ⊢
      exact ih ls2 h

/-- C3 (counterexample): on four bare fence lines the 3-pass cap is
exhausted with changes still pending, and a second call to
`repairMarkdown` changes the text again. -/
theorem repairMarkdown_not_idempotent :
    repairMarkdown (repairMarkdown mdC3) ≠ repairMarkdown mdC3 := by
  decide

/-- C3 (amended): `repairMarkdown` is idempotent on every input on which
its pass loop converges within the 3-pass cap (some pass makes no change);
non-idempotence can only arise from inputs that exhaust the cap. -/
theorem repairMarkdown_idempotent_of_converges (ls : List Str)
    (h : repairConverges ls = true) :
    repairMarkdown (repairMarkdown ls) = repairMarkdown ls := by
  unfold repairConverges at h
  by_cases hf : hasFence ls
  · rw [if_pos hf] at h
    have hfix := convergesFuel_fix 3 ls h
    have hout : repairMarkdown ls = runPasses 3 ls := by
      unfold repairMarkdown
      rw [if_pos hf]
    rw [hout]
    unfold repairMarkdown
    by_cases hf2 : hasFence (runPasses 3 ls)
    · rw [if_pos hf2]
      have hgen : ∀ X : List Str, repairPass X = none → runPasses 3 X = X := by
        intro X hX
        rw [show runPasses 3 X =
          (match repairPass X with
           | some a => runPasses 2 a
           | none => X) from rfl, hX]
      exact hgen _ hfix
    · rw [if_neg hf2]
  · have hid : repairMarkdown ls = ls := by
      unfold repairMarkdown
      rw [if_neg hf]
    rw [hid]
    exact hid

/-- C3 (witness): idempotence on the converging input `mdConv`. -/
theorem repairMarkdown_idempotent_of_converges_witness :
    repairMarkdown (repairMarkdown mdConv) = repairMarkdown mdConv :=
  repairMarkdown_idempotent_of_converges mdConv (by decide)

theorem containsSub_of_isFenceLine (l : Str) (h : isFenceLine l = true) :
    containsSub (ticks 3) l = true := by
  unfold isFenceLine at h
  have hpre3 : ticks 3 <+: jsTrim l := List.isPrefixOf_iff_prefix.mp h
  have h1 : List.dropWhile isSpaceJS (l.dropWhile isSpaceJS).reverse <:+
      (l.dropWhile isSpaceJS).reverse := List.dropWhile_suffix _
  have h2 : jsTrim l <+: l.dropWhile isSpaceJS := by
    apply List.reverse_suffix.mp
    rw [show (jsTrim l).reverse =
      List.dropWhile isSpaceJS (l.dropWhile isSpaceJS).reverse from by
        unfold jsTrim
        rw [List.reverse_reverse]]
    exact h1
  have h3 : ticks 3 <+: l.dropWhile isSpaceJS := hpre3.trans h2
  unfold containsSub
  rw [List.any_eq_true]
  refine ⟨l.dropWhile isSpaceJS, (List.mem_tails _ _).mpr (List.dropWhile_suffix _), ?_⟩
  exact List.isPrefixOf_iff_prefix.mpr h3

theorem fenceLinesAux_nil_of_no_fence : ∀ (ls : List Str) (i : Nat),
    (∀ l ∈ ls, containsSub (ticks 3) l = false) → fenceLinesAux i ls = [] := by
  intro ls
  induction ls with
  | nil => intro i _; rfl
  | cons l rest ih =>
    intro i hno
    simp only [fenceLinesAux]
    cases hfo : fenceOf i l with
    | none => exact ih (i + 1) (fun l' hl' => hno l' (List.mem_cons_of_mem _ hl'))
    | some f =>
      obtain ⟨_, hraw, hfl, _⟩ := fenceOf_fields _ _ _ hfo
      have := containsSub_of_isFenceLine l hfl
      rw [hno l (List.mem_cons_self _ _)] at this
      cases this

theorem fenceLines_nil_of_no_fence (ls : List Str) (h : hasFence ls = false) :
    fenceLines ls = [] := by
  apply fenceLinesAux_nil_of_no_fence
  intro l hl
  unfold hasFence at h
  rw [List.any_eq_false] at h
  exact Bool.eq_false_iff.mpr (h l hl)

/-- A pass that makes no change leaves no dangling opener: if the pairing
walk had a dangling opener, the unclosed-block handling would necessarily
append a closer (its `find` can never succeed after pairing failed). -/
theorem repairPass_none_no_dangling (ls : List Str) (h : repairPass ls = none) :
    (pairFences (fenceLines ls)).2 = none := by
  rcases hpair : pairFences (fenceLines ls) with ⟨bs, cur⟩
  cases cur with
  | none => rfl
  | some op =>
    exfalso
    obtain ⟨_, hnoclo⟩ := pairFences_dangling _ bs op hpair (fenceLines_pairwise ls)
    have hfind := find?_validCloser_none _ op hnoclo
    simp only [repairPass] at h
    rw [hpair] at h
    dsimp only at h
    rw [hfind] at h
    cases h

/-- C4 (counterexample): after `repairMarkdown` on four bare fence lines,
the output still contains a block opener with no matching closer under the
closer rule — a structurally unclosed block. -/
theorem repairMarkdown_leaves_unclosed_block :
    (pairFences (fenceLines (repairMarkdown mdC3))).2 ≠ none := by
  decide

/-- C4 (amended): whenever the pass loop converges within the 3-pass cap,
the output has no dangling opener: every fence-block opener is matched by
a closer with empty info string and tick length at least the opener's (or
a synthetic closer was appended in an earlier pass).  Only inputs that
exhaust the cap can be left with an unclosed block. -/
theorem repairMarkdown_no_dangling_of_converges (ls : List Str)
    (h : repairConverges ls = true) :
    (pairFences (fenceLines (repairMarkdown ls))).2 = none := by
  unfold repairConverges at h
  unfold repairMarkdown
  by_cases hf : hasFence ls
  · rw [if_pos hf] at h ⊢
    exact repairPass_none_no_dangling _ (convergesFuel_fix 3 ls h)
  · rw [if_neg hf] at h ⊢
    rw [fenceLines_nil_of_no_fence ls (Bool.eq_false_iff.mpr hf)]
    rfl

/-- C4 (witness): on the converging input `mdConv` the output pairing has
no dangling opener. -/
theorem repairMarkdown_no_dangling_of_converges_witness :
    (pairFences (fenceLines (repairMarkdown mdConv))).2 = none :=
  repairMarkdown_no_dangling_of_converges mdConv (by decide)

/-- C5: `repairMarkdown` never touches a non-fence line: every input line
whose trimmed content does not start with three backticks appears
byte-identical at the same position in the output. -/
theorem repairMarkdown_preserves_nonfence_lines (ls : List Str) (i : Nat) (s : Str)
    (h1 : ls[i]? = some s) (h2 : isFenceLine s = false) :
    (repairMarkdown ls)[i]? = some s := by
  have hrel := repairMarkdown_rel ls i
  rcases hrel with h | h | ⟨s', u, ha, hb, hs', hu, hr⟩
  · rw [h1] at h
    cases h
  · rw [h, h1]
  · rw [h1] at ha
    injection ha with ha
    subst ha
    rw [hs'] at h2
    cases h2

/-- C5 (witness): the prose line of `mdConv` survives byte-identical at
position 1. -/
theorem repairMarkdown_preserves_nonfence_lines_witness :
    (repairMarkdown mdConv)[1]? = some "a".toList :=
  repairMarkdown_preserves_nonfence_lines mdConv 1 "a".toList (by decide) (by decide)
